import Mathlib

/-!
Verification of the thumbnail-generation core of a static gallery generator
(`generate-gallery.js`), shallowly embedded in Lean 4.

Conventions of the embedding:
* JavaScript 32-bit integer coercions (`ToInt32`, `>>> 0`) are written as
  explicit residues modulo `2 ^ 32` on natural numbers.
* `charCodeAt` values are modelled by the natural code of each character.
* Durations probed from a video are modelled as exact rationals.
* Filesystem and subprocess effects are modelled by explicit state records;
  external commands are oracles that either succeed or fail atomically.
-/

namespace Gallery

/-- Digit characters as produced by JavaScript `Number.prototype.toString`
for bases up to 16 (lowercase). -/
def hexChar : Nat → Char
  | 0 => '0'
  | 1 => '1'
  | 2 => '2'
  | 3 => '3'
  | 4 => '4'
  | 5 => '5'
  | 6 => '6'
  | 7 => '7'
  | 8 => '8'
  | 9 => '9'
  | 10 => 'a'
  | 11 => 'b'
  | 12 => 'c'
  | 13 => 'd'
  | 14 => 'e'
  | _ => 'f'

/-- Fuel-driven repeated division used to render a natural number in base
`b`; the fuel is always instantiated so that it never runs out. -/
def digitsRecAux (b : Nat) : Nat → Nat → List Nat
  | 0, n => [n]
  | fuel + 1, n =>
    if n < b ∨ b ≤ 1 then [n]
    else digitsRecAux b fuel (n / b) ++ [n % b]

/-- Minimal big-endian digit list of `n` in base `b`, as produced by
JavaScript `Number.prototype.toString(b)` on a natural number. -/
def digitsRec (b n : Nat) : List Nat := digitsRecAux b n n

theorem digitsRecAux_fuel_eq (b : Nat) :
    ∀ f1 f2 n, n ≤ f1 → n ≤ f2 → digitsRecAux b f1 n = digitsRecAux b f2 n := by
  intro f1
  induction f1 with
  | zero =>
    intro f2 n h1 _
    have hn : n = 0 := Nat.le_zero.mp h1
    subst hn
    cases f2 with
    | zero => rfl
    | succ f =>
      have : (0 : Nat) < b ∨ b ≤ 1 := by omega
      simp [digitsRecAux, this]
  | succ f1 ih =>
    intro f2 n h1 h2
    by_cases hc : n < b ∨ b ≤ 1
    · cases f2 with
      | zero =>
        have hn : n = 0 := Nat.le_zero.mp h2
        subst hn
        simp [digitsRecAux, hc]
      | succ f => simp [digitsRecAux, hc]
    · push_neg at hc
      cases f2 with
      | zero =>
        exfalso
        have hn : n = 0 := Nat.le_zero.mp h2
        omega
      | succ f =>
        have hcond : ¬ (n < b ∨ b ≤ 1) := by omega
        simp only [digitsRecAux, hcond, if_false]
        have hdb : n / b ≤ f1 := by
          have := Nat.div_le_self n b
          have hlt : n / b < n := Nat.div_lt_self (by omega) (by omega)
          omega
        have hdb2 : n / b ≤ f := by
          have hlt : n / b < n := Nat.div_lt_self (by omega) (by omega)
          omega
        rw [ih f (n / b) hdb hdb2]

theorem digitsRec_step (b n : Nat) :
    digitsRec b n = if n < b ∨ b ≤ 1 then [n]
      else digitsRec b (n / b) ++ [n % b] := by
  unfold digitsRec
  cases n with
  | zero =>
    have : (0 : Nat) < b ∨ b ≤ 1 := by omega
    simp [digitsRecAux, this]
  | succ m =>
    by_cases hc : m + 1 < b ∨ b ≤ 1
    · simp [digitsRecAux, hc]
    · push_neg at hc
      simp only [digitsRecAux, hc]
      have hcond : ¬ (m + 1 < b ∨ b ≤ 1) := by omega
      simp only [hcond, if_false]
      have hle : (m + 1) / b ≤ m := by
        have : (m + 1) / b < m + 1 := Nat.div_lt_self (by omega) (by omega)
        omega
      rw [digitsRecAux_fuel_eq b m ((m + 1) / b) ((m + 1) / b) hle (le_refl _)]

/-- Value of a big-endian digit list in base `b`. -/
def valD (b : Nat) : List Nat → Nat
  | [] => 0
  | d :: t => d * b ^ t.length + valD b t

/-- JavaScript `String.prototype.padStart(k, "0")` on a list of characters. -/
def padZeros (k : Nat) (l : List Char) : List Char :=
  List.replicate (k - l.length) '0' ++ l

/-- JavaScript `n.toString(b)` for a natural `n`: minimal lowercase digits. -/
def toBaseStr (b n : Nat) : List Char := (digitsRec b n).map hexChar

/-- One step of the source's dual-djb2 loop `h = ((h << 5) + h) ^ c`, with
the JavaScript `Int32` coercions made explicit: `h << 5` truncates to
32 bits, and the xor coerces both of its operands to 32 bits. -/
def hashStep (h c : Nat) : Nat :=
  ((h * 32 % 2 ^ 32 + h) % 2 ^ 32) ^^^ (c % 2 ^ 32)

/-- The accumulator loop of the source's `hashPath` over the character
codes of the input string. -/
def hashAccum : List Nat → Nat → Nat
  | [], h => h
  | c :: t, h => hashAccum t (hashStep h c)

/-- The source's `hashPath`: two accumulators seeded `5381` and `52711`,
each rendered as `(h >>> 0).toString(16).padStart(8, "0")`, concatenated
with accumulator 1 first. -/
def hashPath (codes : List Nat) : List Char :=
  padZeros 8 (toBaseStr 16 (hashAccum codes 5381)) ++
    padZeros 8 (toBaseStr 16 (hashAccum codes 52711))

/-- `hashPath` applied to a string, reading each character's code. -/
def hashPathStr (s : String) : String :=
  String.mk (hashPath (s.data.map Char.toNat))

/-- Reference step from the claim's words: update the accumulator as
`((acc <<< 5) + acc) ^^^ c`, truncating to 32 bits after the step. -/
def specHashStep (h c : Nat) : Nat :=
  (((h <<< 5) + h) ^^^ c) % 2 ^ 32

/-- Reference dual-djb2 fingerprint following the claim's words: the two
reference accumulators rendered as zero-padded lowercase 8-hex-digit
strings, accumulator 1 first. -/
def specHashPath (codes : List Nat) : List Char :=
  padZeros 8 (toBaseStr 16 (codes.foldl specHashStep 5381)) ++
    padZeros 8 (toBaseStr 16 (codes.foldl specHashStep 52711))

/-- Lowercase hexadecimal digit characters. -/
abbrev IsLowerHex (c : Char) : Prop :=
  ('0' ≤ c ∧ c ≤ '9') ∨ ('a' ≤ c ∧ c ≤ 'f')

theorem xor_mod_two_pow (a b n : Nat) :
    (a ^^^ b) % 2 ^ n = a % 2 ^ n ^^^ b % 2 ^ n := by
  apply Nat.eq_of_testBit_eq
  intro i
  simp only [Nat.testBit_mod_two_pow, Nat.testBit_xor]
  by_cases h : i < n <;> simp [h]

theorem hashStep_eq_specHashStep (h c : Nat) : hashStep h c = specHashStep h c := by
  unfold hashStep specHashStep
  rw [Nat.shiftLeft_eq, xor_mod_two_pow]
  congr 1
  have h32 : (2 : Nat) ^ 32 = 4294967296 := by norm_num
  have h5 : (2 : Nat) ^ 5 = 32 := by norm_num
  rw [h32, h5]
  omega

theorem hashStep_lt (h c : Nat) : hashStep h c < 2 ^ 32 := by
  unfold hashStep
  exact Nat.xor_lt_two_pow (Nat.mod_lt _ (by norm_num)) (Nat.mod_lt _ (by norm_num))

theorem hashAccum_lt (codes : List Nat) (seed : Nat) (hs : seed < 2 ^ 32) :
    hashAccum codes seed < 2 ^ 32 := by
  induction codes generalizing seed with
  | nil => exact hs
  | cons c t ih => exact ih _ (hashStep_lt _ c)

theorem hashAccum_eq_specFold (codes : List Nat) (seed : Nat) :
    hashAccum codes seed = codes.foldl specHashStep seed := by
  induction codes generalizing seed with
  | nil => rfl
  | cons c t ih =>
    show hashAccum t (hashStep seed c) = List.foldl specHashStep (specHashStep seed c) t
    rw [hashStep_eq_specHashStep, ih]

theorem digitsRec_length_pos (b n : Nat) : 1 ≤ (digitsRec b n).length := by
  rw [digitsRec_step]
  split
  · simp
  · simp

theorem digitsRec_length_le (b : Nat) (hb : 2 ≤ b) :
    ∀ n k, 1 ≤ k → n < b ^ k → (digitsRec b n).length ≤ k := by
  intro n
  induction n using Nat.strong_induction_on with
  | _ n ih =>
    intro k hk hn
    rw [digitsRec_step]
    split
    · simpa using hk
    · rename_i hcond
      push_neg at hcond
      have hk2 : 2 ≤ k := by
        rcases Nat.lt_or_ge k 2 with h | h
        · exfalso
          have : k = 1 := by omega
          subst this
          simp at hn
          omega
        · exact h
      have hdiv : n / b < b ^ (k - 1) := by
        rw [Nat.div_lt_iff_lt_mul (by omega)]
        calc n < b ^ k := hn
          _ = b ^ (k - 1) * b := by
              rw [← pow_succ]
              congr 1
              omega
      have hrec := ih (n / b) (Nat.div_lt_self (by omega) (by omega)) (k - 1)
        (by omega) hdiv
      simp only [List.length_append, List.length_cons, List.length_nil]
      omega

theorem digitsRec_entries (b : Nat) (hb : 2 ≤ b) :
    ∀ n, ∀ d ∈ digitsRec b n, d < b := by
  intro n
  induction n using Nat.strong_induction_on with
  | _ n ih =>
    rw [digitsRec_step]
    split
    · rename_i hcond
      rcases hcond with h | h
      · intro d hd
        simp at hd
        omega
      · omega
    · rename_i hcond
      push_neg at hcond
      intro d hd
      rcases List.mem_append.mp hd with h | h
      · exact ih (n / b) (Nat.div_lt_self (by omega) (by omega)) d h
      · simp at h
        subst h
        exact Nat.mod_lt _ (by omega)

theorem valD_append_singleton (b : Nat) (l : List Nat) (d : Nat) :
    valD b (l ++ [d]) = b * valD b l + d := by
  induction l with
  | nil => simp [valD]
  | cons a t ih =>
    simp only [List.cons_append, valD, ih, List.append_eq, List.length_append,
      List.length_cons, List.length_nil]
    ring

theorem valD_digitsRec (b : Nat) (hb : 2 ≤ b) : ∀ n, valD b (digitsRec b n) = n := by
  intro n
  induction n using Nat.strong_induction_on with
  | _ n ih =>
    rw [digitsRec_step]
    split
    · simp [valD]
    · rename_i hcond
      push_neg at hcond
      rw [valD_append_singleton, ih (n / b) (Nat.div_lt_self (by omega) (by omega))]
      exact Nat.div_add_mod n b

theorem valD_lt (b : Nat) (hb : 1 ≤ b) :
    ∀ l : List Nat, (∀ d ∈ l, d < b) → valD b l < b ^ l.length := by
  intro l
  induction l with
  | nil =>
    intro _
    norm_num [valD]
  | cons a t ih =>
    intro hd
    have ha : a < b := hd a (by simp)
    have ht : valD b t < b ^ t.length := ih (fun d h => hd d (by simp [h]))
    simp only [valD, List.length_cons]
    calc a * b ^ t.length + valD b t < a * b ^ t.length + b ^ t.length := by omega
      _ = (a + 1) * b ^ t.length := by ring
      _ ≤ b * b ^ t.length := Nat.mul_le_mul_right _ (by omega)
      _ = b ^ (t.length + 1) := by ring

theorem valD_replicate_zero (b z : Nat) (l : List Nat) :
    valD b (List.replicate z 0 ++ l) = valD b l := by
  induction z with
  | zero => simp
  | succ m ih => simpa [List.replicate_succ, valD] using ih

theorem padZeros_length (k : Nat) (l : List Char) (h : l.length ≤ k) :
    (padZeros k l).length = k := by
  simp [padZeros]
  omega

theorem hexChar_lower (d : Nat) (hd : d < 16) : IsLowerHex (hexChar d) := by
  interval_cases d <;> decide

theorem hashPath_length (codes : List Nat) : (hashPath codes).length = 16 := by
  unfold hashPath
  rw [List.length_append]
  rw [padZeros_length, padZeros_length]
  · rw [toBaseStr, List.length_map]
    exact digitsRec_length_le 16 (by norm_num) _ 8 (by norm_num)
      (by calc hashAccum codes 52711 < 2 ^ 32 := hashAccum_lt _ _ (by norm_num)
            _ = 16 ^ 8 := by norm_num)
  · rw [toBaseStr, List.length_map]
    exact digitsRec_length_le 16 (by norm_num) _ 8 (by norm_num)
      (by calc hashAccum codes 5381 < 2 ^ 32 := hashAccum_lt _ _ (by norm_num)
            _ = 16 ^ 8 := by norm_num)

theorem hashPath_lower (codes : List Nat) : ∀ c ∈ hashPath codes, IsLowerHex c := by
  intro c hc
  unfold hashPath at hc
  have step : ∀ m, ∀ c ∈ padZeros 8 (toBaseStr 16 m), IsLowerHex c := by
    intro m c hc
    rcases List.mem_append.mp hc with h | h
    · have := List.eq_of_mem_replicate h
      subst this
      decide
    · rcases List.mem_map.mp h with ⟨d, hd, hdc⟩
      subst hdc
      exact hexChar_lower d (digitsRec_entries 16 (by norm_num) m d hd)
  rcases List.mem_append.mp hc with h | h
  · exact step _ c h
  · exact step _ c h

/-- Claim C1: `hashPath` is pure and total, agrees with the dual-djb2
reference definition (two 32-bit accumulators seeded 5381 and 52711, each
updated per character code as `((acc <<< 5) + acc) ^^^ code` truncated to
32 bits, rendered as two zero-padded lowercase 8-hex-digit strings with
accumulator 1 first), and its result always has exactly 16 lowercase
hexadecimal characters.  Being a Lean function of the path alone, it is
identical for identical paths on every run. -/
theorem hashPath_dual_djb2_spec (s : String) :
    hashPathStr s = String.mk (specHashPath (s.data.map Char.toNat)) ∧
    (hashPathStr s).length = 16 ∧
    ∀ c ∈ (hashPathStr s).data, IsLowerHex c := by
  refine ⟨?_, ?_, ?_⟩
  · unfold hashPathStr hashPath specHashPath
    rw [hashAccum_eq_specFold, hashAccum_eq_specFold]
  · show (hashPath (s.data.map Char.toNat)).length = 16
    exact hashPath_length _
  · show ∀ c ∈ hashPath (s.data.map Char.toNat), IsLowerHex c
    exact hashPath_lower _

/-! ## Paths, extensions and the cache locator -/

/-- Media kind, `'image'` or `'video'` in the source. -/
inductive MediaType where
  | image
  | video
deriving DecidableEq

/-- `IMAGE_EXTENSIONS` from the source. -/
def IMAGE_EXTENSIONS : List String := [".jpg", ".jpeg", ".png", ".gif", ".webp", ".bmp"]

/-- `VIDEO_EXTENSIONS` from the source. -/
def VIDEO_EXTENSIONS : List String := [".mp4"]

/-- `MEDIA_EXTENSIONS` from the source. -/
def MEDIA_EXTENSIONS : List String := IMAGE_EXTENSIONS ++ VIDEO_EXTENSIONS

/-- `OUTPUT_DATA_FILE` from the source. -/
def OUTPUT_DATA_FILE : String := "images-data.js"

/-- `OUTPUT_HTML_FILE` from the source. -/
def OUTPUT_HTML_FILE : String := "gallery.html"

/-- `THUMBNAILS_DIR` from the source. -/
def THUMBNAILS_DIR : String := "thumbnails"

/-- Index of the last occurrence of `c`, if any. -/
def lastIndexOf (c : Char) : List Char → Option Nat
  | [] => none
  | a :: t =>
    match lastIndexOf c t with
    | some k => some (k + 1)
    | none => if a = c then some 0 else none

/-- Characters of the basename: everything after the last `/`. -/
def basenameChars (l : List Char) : List Char :=
  match lastIndexOf '/' l with
  | none => l
  | some k => l.drop (k + 1)

/-- Node's `path.extname` (posix): the substring of the basename from its
last dot, except that a missing dot, a dot in leading position, or the
basename `".."` yield the empty string. -/
def extname (p : String) : String :=
  let b := basenameChars p.data
  match lastIndexOf '.' b with
  | none => ""
  | some k => if k = 0 then "" else if b = ['.', '.'] then "" else String.mk (b.drop k)

/-- JavaScript `String.prototype.toLowerCase` restricted to ASCII data (the
only case exercised by the extension allow-list): characterwise
`Char.toLower`. -/
def toLowerStr (s : String) : String := String.mk (s.data.map Char.toLower)

/-- `path.join` restricted to plain segments (no `.`/`..` components and no
empty segments), which is how the source uses it: plain `/`-interleaving. -/
def joinPath : List String → String
  | [] => ""
  | [s] => s
  | s :: rest => s ++ "/" ++ joinPath rest

/-- The one-character string `s[i]` of JavaScript. -/
def charAtStr (s : String) (i : Nat) : String := String.mk [s.data[i]!]

/-- The source's `getThumbnailPath`: hash-sharded cache artifact path with
the extension chosen from the media type and the lowercased source
extension. -/
def getThumbnailPath (mediaPath : String) (mediaType : MediaType) : String :=
  let ext := toLowerStr (extname mediaPath)
  let thumbExt :=
    if mediaType = MediaType.video ∨ ext = ".gif" then ".webp"
    else if ext = ".png" then ".png" else ".jpg"
  let hash := hashPathStr mediaPath
  joinPath [THUMBNAILS_DIR, charAtStr hash 0, charAtStr hash 1, hash ++ thumbExt]

/-- The claim's extension rule, stated from the claim's own words: `.webp`
if the kind is video or the lowercased extension is `.gif`, `.png` if the
lowercased extension is `.png`, and `.jpg` otherwise. -/
def specThumbExt (mediaPath : String) (mediaType : MediaType) : String :=
  if mediaType = MediaType.video ∨ toLowerStr (extname mediaPath) = ".gif" then ".webp"
  else if toLowerStr (extname mediaPath) = ".png" then ".png" else ".jpg"

/-- Claim C2: the cache artifact path is
`thumbnails/<h[0]>/<h[1]>/<h><ext>` with `h` the 16-character fingerprint
of the media path and `ext` given by the claim's extension rule. -/
theorem getThumbnailPath_layout (p : String) (t : MediaType) :
    getThumbnailPath p t =
      "thumbnails/" ++ charAtStr (hashPathStr p) 0 ++ "/" ++
        charAtStr (hashPathStr p) 1 ++ "/" ++ hashPathStr p ++ specThumbExt p t ∧
    (hashPathStr p).length = 16 := by
  constructor
  · show joinPath _ = _
    simp only [joinPath, specThumbExt, THUMBNAILS_DIR]
    have assoc : ∀ a b c : String, a ++ b ++ c = a ++ (b ++ c) := by
      intro a b c
      apply String.ext
      simp [String.data_append, List.append_assoc]
    by_cases h1 : t = MediaType.video ∨ toLowerStr (extname p) = ".gif"
    · simp only [h1, if_true]
      simp [assoc]
    · simp only [h1, if_false]
      by_cases h2 : toLowerStr (extname p) = ".png"
      · simp only [h2, if_true]
        simp [assoc]
      · simp only [h2, if_false]
        simp [assoc]
  · show (hashPath _).length = 16
    exact hashPath_length _

/-! ## Media discovery with size-based deduplication -/

/-- One inventory entry, as pushed by `findMedia`. -/
structure MediaEntry where
  path : String
  size : Nat
  type : MediaType
deriving DecidableEq

/-- A directory tree handed to discovery: regular files with a byte size,
and directories with an ordered child list (the `readdirSync` order). -/
inductive FSNode where
  | file (name : String) (size : Nat)
  | dir (name : String) (children : List FSNode)

/-- The traversal state threaded through `findMedia`: the module-level
`seenSizes` set, the `duplicatesSkipped` counter and the `media` array. -/
structure ScanState where
  seenSizes : List Nat
  duplicatesSkipped : Nat
  media : List MediaEntry
deriving DecidableEq

/-- Relative path of an entry whose parent directory has relative path
`pre` (`""` at the scan root); mirrors `path.relative(ROOT_DIR, fullPath)`
for paths below the root. -/
def joinRel (pre name : String) : String :=
  if pre = "" then name else pre ++ "/" ++ name

/-- The body of `findMedia` for one regular file: skip the two generated
output names and the cache directory name, classify by lowercased
extension against the allow-list, then apply size deduplication. -/
def fileStep (pre : String) (st : ScanState) (name : String) (size : Nat) : ScanState :=
  if name = OUTPUT_DATA_FILE ∨ name = OUTPUT_HTML_FILE ∨ name = THUMBNAILS_DIR then st
  else if toLowerStr (extname name) ∈ MEDIA_EXTENSIONS then
    if size ∈ st.seenSizes then
      { st with duplicatesSkipped := st.duplicatesSkipped + 1 }
    else
      { st with
          seenSizes := size :: st.seenSizes,
          media := st.media ++
            [{ path := joinRel pre name, size := size,
               type := if toLowerStr (extname name) ∈ VIDEO_EXTENSIONS then MediaType.video
                 else MediaType.image }] }
  else st

/-- The source's `findMedia` over a listing, in `readdirSync` order:
directories recurse (unless their name is skipped), files go through
`fileStep`. -/
def scanList (pre : String) (st : ScanState) : List FSNode → ScanState
  | [] => st
  | FSNode.file name size :: rest => scanList pre (fileStep pre st name size) rest
  | FSNode.dir name children :: rest =>
    if name = OUTPUT_DATA_FILE ∨ name = OUTPUT_HTML_FILE ∨ name = THUMBNAILS_DIR then
      scanList pre st rest
    else
      scanList pre (scanList (joinRel pre name) st children) rest

/-- `findMedia` from the scan root, with fresh global state. -/
def findMedia (root : List FSNode) : ScanState :=
  scanList "" ⟨[], 0, []⟩ root

/-- The deduplication invariant: inventory sizes are pairwise distinct and
every recorded size is in the seen-set. -/
def ScanInv (st : ScanState) : Prop :=
  List.Pairwise (fun a b => a.size ≠ b.size) st.media ∧
    ∀ e ∈ st.media, e.size ∈ st.seenSizes

theorem scan_push_inv (st : ScanState) (e : MediaEntry) (h : ScanInv st)
    (hnew : e.size ∉ st.seenSizes) :
    ScanInv { st with seenSizes := e.size :: st.seenSizes, media := st.media ++ [e] } ∧
      st.seenSizes ⊆ e.size :: st.seenSizes := by
  refine ⟨⟨?_, ?_⟩, fun a ha => List.mem_cons_of_mem _ ha⟩
  · rw [List.pairwise_append]
    refine ⟨h.1, List.pairwise_singleton _ _, ?_⟩
    intro a ha b hb
    simp only [List.mem_singleton] at hb
    subst hb
    intro hab
    exact hnew (hab ▸ h.2 a ha)
  · intro x hx
    rcases List.mem_append.mp hx with h' | h'
    · exact List.mem_cons_of_mem _ (h.2 x h')
    · simp only [List.mem_singleton] at h'
      subst h'
      exact List.mem_cons_self _ _

theorem fileStep_inv (pre : String) (st : ScanState) (name : String) (size : Nat)
    (h : ScanInv st) :
    ScanInv (fileStep pre st name size) ∧
      st.seenSizes ⊆ (fileStep pre st name size).seenSizes := by
  unfold fileStep
  split_ifs with hskip hmedia hdup hvid
  · exact ⟨h, fun a ha => ha⟩
  · exact ⟨h, fun a ha => ha⟩
  · exact scan_push_inv st _ h hdup
  · exact scan_push_inv st _ h hdup
  · exact ⟨h, fun a ha => ha⟩

theorem scanList_inv (pre : String) (st : ScanState) (nodes : List FSNode) :
    ScanInv st →
      ScanInv (scanList pre st nodes) ∧
        st.seenSizes ⊆ (scanList pre st nodes).seenSizes := by
  induction pre, st, nodes using scanList.induct with
  | case1 pre st =>
    intro h
    simp only [scanList]
    exact ⟨h, fun a ha => ha⟩
  | case2 pre st name size rest ih =>
    intro h
    have hf := fileStep_inv pre st name size h
    have hrec := ih hf.1
    simp only [scanList]
    exact ⟨hrec.1, fun a ha => hrec.2 (hf.2 ha)⟩
  | case3 pre st name children rest hcond ih =>
    intro h
    simp only [scanList]
    rw [if_pos hcond]
    exact ih h
  | case4 pre st name children rest hcond ih1 ih2 =>
    intro h
    have h1 := ih1 h
    have h2 := ih2 h1.1
    simp only [scanList]
    rw [if_neg hcond]
    exact ⟨h2.1, fun a ha => h2.2 (h1.2 ha)⟩

/-- The concrete discovery example of the claim: three files of sizes
100, 200, 100 in that order. -/
def dedupExample : List FSNode :=
  [FSNode.file "a.jpg" 100, FSNode.file "b.jpg" 200, FSNode.file "c.jpg" 100]

/-- Claim C3: discovery never records two entries with the same byte size
(a file whose size was already seen is skipped and counted), and on the
three-file example with sizes 100, 200, 100 in discovery order the
inventory holds exactly the first and second files and
`duplicatesSkipped = 1`. -/
theorem findMedia_dedup_sizes (root : List FSNode) :
    List.Pairwise (fun a b => a.size ≠ b.size) (findMedia root).media ∧
    (findMedia dedupExample).media =
      [{ path := "a.jpg", size := 100, type := MediaType.image },
       { path := "b.jpg", size := 200, type := MediaType.image }] ∧
    (findMedia dedupExample).duplicatesSkipped = 1 := by
  refine ⟨?_, ?_, ?_⟩
  · exact (scanList_inv "" ⟨[], 0, []⟩ root ⟨List.Pairwise.nil, by simp⟩).1.1
  · show (scanList "" ⟨[], 0, []⟩ dedupExample).media = _
    simp +decide [dedupExample, scanList, fileStep, joinRel]
  · show (scanList "" ⟨[], 0, []⟩ dedupExample).duplicatesSkipped = 1
    simp +decide [dedupExample, scanList, fileStep, joinRel]

/-! ## Video sampling parameters and timestamps -/

/-- Value of one lowercase hexadecimal digit, as `parseInt(_, 16)` reads
the characters produced by `hashPath`. -/
def hexVal (c : Char) : Nat := if c ≤ '9' then c.toNat - 48 else c.toNat - 87

/-- `parseInt(s, 16)` on a list of hexadecimal digit characters. -/
def parseHex (l : List Char) : Nat := l.foldl (fun a c => 16 * a + hexVal c) 0

/-- `parseInt(hash.slice(0, 2), 16) % 4 + 7` from the source (7 to 10
segments). -/
def baseSegmentCount (p : String) : Nat :=
  parseHex ((hashPathStr p).data.take 2) % 4 + 7

/-- `parseInt(hash.slice(2, 4), 16) % 11 + 10` from the source (10 to 20
frames per segment). -/
def framesPerSegment (p : String) : Nat :=
  parseHex (((hashPathStr p).data.drop 2).take 2) % 11 + 10

/-- JavaScript `Math.min` on two integers. -/
def jsMin (a b : ℤ) : ℤ := if a ≤ b then a else b

/-- JavaScript `Math.max` on two integers. -/
def jsMax (a b : ℤ) : ℤ := if b ≤ a then a else b

/-- The source's
`Math.min(baseSegmentCount, Math.max(1, Math.floor(duration)))`. -/
def segmentCount (p : String) (d : ℚ) : ℤ :=
  jsMin (baseSegmentCount p) (jsMax 1 ⌊d⌋)

theorem jsMin_eq (a b : ℤ) : jsMin a b = min a b := by
  unfold jsMin
  rw [min_def]

theorem jsMax_one_eq (x : ℤ) : jsMax 1 x = max 1 x := by
  unfold jsMax
  rw [max_def]
  split_ifs <;> omega

/-- The claim's phrasing of a fingerprint byte: the byte value of the hex
pair at offset `off` of the fingerprint. -/
def fpByte (p : String) (off : Nat) : Nat :=
  16 * hexVal ((hashPathStr p).data[2 * off]!) + hexVal ((hashPathStr p).data[2 * off + 1]!)

/-- The source's `interval`: the usable window divided by
`Math.max(1, segmentCount - 1)`. -/
def interval (d : ℚ) (n : ℕ) : ℚ :=
  (d * 0.95 - d * 0.05) / ((max 1 (n - 1) : ℕ) : ℚ)

/-- The source's `segmentTimestamps` loop:
`startOffset + i * interval` for `i < segmentCount`. -/
def segmentTimestamps (d : ℚ) (n : ℕ) : List ℚ :=
  (List.range n).map (fun i : ℕ => d * 0.05 + (i : ℚ) * interval d n)

theorem parseHex_pair (c0 c1 : Char) :
    parseHex [c0, c1] = 16 * hexVal c0 + hexVal c1 := by
  simp [parseHex, List.foldl]

theorem hashPathStr_two_chars (p : String) :
    ∃ c0 c1 c2 c3 rest, (hashPathStr p).data = c0 :: c1 :: c2 :: c3 :: rest := by
  have hlen : (hashPathStr p).data.length = 16 := hashPath_length _
  match hd : (hashPathStr p).data, hlen with
  | c0 :: c1 :: c2 :: c3 :: rest, _ => exact ⟨c0, c1, c2, c3, rest, rfl⟩

theorem baseSegmentCount_eq_fpByte (p : String) :
    baseSegmentCount p = fpByte p 0 % 4 + 7 := by
  obtain ⟨c0, c1, c2, c3, rest, hd⟩ := hashPathStr_two_chars p
  unfold baseSegmentCount fpByte
  rw [hd]
  simp [parseHex, List.foldl]

theorem framesPerSegment_eq_fpByte (p : String) :
    framesPerSegment p = fpByte p 1 % 11 + 10 := by
  obtain ⟨c0, c1, c2, c3, rest, hd⟩ := hashPathStr_two_chars p
  unfold framesPerSegment fpByte
  rw [hd]
  simp [parseHex, List.foldl]

theorem baseSegmentCount_le (p : String) : baseSegmentCount p ≤ 10 := by
  have := Nat.mod_lt (parseHex ((hashPathStr p).data.take 2)) (show 0 < 4 by norm_num)
  unfold baseSegmentCount
  omega

theorem framesPerSegment_le (p : String) : framesPerSegment p ≤ 20 := by
  have := Nat.mod_lt (parseHex (((hashPathStr p).data.drop 2).take 2))
    (show 0 < 11 by norm_num)
  unfold framesPerSegment
  omega

/-- Claim C5: the sampling parameters are derived deterministically from
the fingerprint: segment count is the byte at offset 0 mod 4 plus 7 (in
`[7, 10]`), frames-per-segment the byte at offset 1 mod 11 plus 10 (in
`[10, 20]`), and the used segment count is
`min(baseSegmentCount, max(1, floor(duration)))`, hence at least 1. -/
theorem video_params_derivation (p : String) (d : ℚ) :
    baseSegmentCount p = fpByte p 0 % 4 + 7 ∧
    framesPerSegment p = fpByte p 1 % 11 + 10 ∧
    7 ≤ baseSegmentCount p ∧ baseSegmentCount p ≤ 10 ∧
    10 ≤ framesPerSegment p ∧ framesPerSegment p ≤ 20 ∧
    segmentCount p d = min (baseSegmentCount p : ℤ) (max 1 ⌊d⌋) ∧
    1 ≤ segmentCount p d := by
  refine ⟨baseSegmentCount_eq_fpByte p, framesPerSegment_eq_fpByte p, ?_, ?_, ?_, ?_, ?_, ?_⟩
  · exact Nat.le_add_left 7 _
  · exact baseSegmentCount_le p
  · exact Nat.le_add_left 10 _
  · exact framesPerSegment_le p
  · unfold segmentCount
    rw [jsMin_eq, jsMax_one_eq]
  · have h7 : 7 ≤ baseSegmentCount p := Nat.le_add_left 7 _
    unfold segmentCount jsMin jsMax
    split_ifs <;> omega

/-- Closed witness for C5 at a concrete path and duration. -/
theorem video_params_derivation_witness :
    segmentCount "v.mp4" 3 = min (baseSegmentCount "v.mp4" : ℤ) (max 1 ⌊(3 : ℚ)⌋) ∧
      1 ≤ segmentCount "v.mp4" 3 :=
  ⟨(video_params_derivation "v.mp4" 3).2.2.2.2.2.2.1,
    (video_params_derivation "v.mp4" 3).2.2.2.2.2.2.2⟩

theorem segmentTimestamps_get (d : ℚ) (n i : ℕ) (h : i < n) :
    (segmentTimestamps d n)[i]! = d * 0.05 + (i : ℚ) * interval d n := by
  unfold segmentTimestamps
  have hlen : i < ((List.range n).map (fun j : ℕ => d * 0.05 + (j : ℚ) * interval d n)).length := by
    rw [List.length_map, List.length_range]
    exact h
  rw [getElem!_pos ((List.range n).map (fun j : ℕ => d * 0.05 + (j : ℚ) * interval d n)) i hlen]
  simp only [List.getElem_map, List.getElem_range]

theorem interval_nonneg (d : ℚ) (n : ℕ) (hd : 0 < d) : 0 ≤ interval d n := by
  unfold interval
  apply div_nonneg
  · nlinarith
  · positivity

theorem segment_last_eq (d : ℚ) (n : ℕ) (hn : 2 ≤ n) :
    d * 0.05 + ((n - 1 : ℕ) : ℚ) * interval d n = d * 0.95 := by
  unfold interval
  have hmax : max 1 (n - 1) = n - 1 := Nat.max_eq_right (by omega)
  rw [hmax, Nat.cast_sub (by omega : 1 ≤ n)]
  have hne : (n : ℚ) - 1 ≠ 0 := by
    have h2 : (2 : ℚ) ≤ (n : ℚ) := by exact_mod_cast hn
    intro hzero
    nlinarith
  field_simp

/-- Claim C6: for positive duration and `segmentCount ≥ 1` the timestamps
are placed evenly across `[0.05·d, 0.95·d]`: a single timestamp at the
window start when `segmentCount = 1`; otherwise first at the window start,
last at the window end, equally spaced; and every timestamp lies in the
window, endpoints included. -/
theorem segment_timestamps_even (d : ℚ) (n : ℕ) (hd : 0 < d) (hn : 1 ≤ n) :
    (n = 1 → segmentTimestamps d n = [d * 0.05]) ∧
    (2 ≤ n →
      (segmentTimestamps d n)[0]! = d * 0.05 ∧
      (segmentTimestamps d n)[n - 1]! = d * 0.95 ∧
      ∀ i, i + 1 < n →
        (segmentTimestamps d n)[i + 1]! - (segmentTimestamps d n)[i]! = interval d n) ∧
    ∀ t ∈ segmentTimestamps d n, d * 0.05 ≤ t ∧ t ≤ d * 0.95 := by
  refine ⟨?_, ?_, ?_⟩
  · intro h1
    subst h1
    unfold segmentTimestamps
    rw [show List.range 1 = [0] from rfl]
    simp
  · intro h2
    refine ⟨?_, ?_, ?_⟩
    · rw [segmentTimestamps_get d n 0 (by omega)]
      simp
    · rw [segmentTimestamps_get d n (n - 1) (by omega)]
      exact segment_last_eq d n h2
    · intro i hi
      rw [segmentTimestamps_get d n (i + 1) (by omega),
        segmentTimestamps_get d n i (by omega)]
      push_cast
      ring
  · intro t ht
    unfold segmentTimestamps at ht
    rcases List.mem_map.mp ht with ⟨i, hi, rfl⟩
    rw [List.mem_range] at hi
    have hΔ := interval_nonneg d n hd
    constructor
    · have : 0 ≤ (i : ℚ) * interval d n := mul_nonneg (by positivity) hΔ
      linarith
    · rcases Nat.lt_or_ge n 2 with hn1 | hn2
      · have h1 : n = 1 := by omega
        have hi0 : i = 0 := by omega
        subst h1
        subst hi0
        push_cast
        nlinarith
      · have hle : (i : ℚ) ≤ ((n - 1 : ℕ) : ℚ) := by
          have : i ≤ n - 1 := by omega
          exact_mod_cast this
        have hmul : (i : ℚ) * interval d n ≤ ((n - 1 : ℕ) : ℚ) * interval d n :=
          mul_le_mul_of_nonneg_right hle hΔ
        have hlast := segment_last_eq d n hn2
        linarith

/-- Closed witness for C6 at duration 1 and three segments. -/
theorem segment_timestamps_even_witness :
    (0 : ℚ) < 1 ∧ (1 : ℕ) ≤ 3 ∧
      ∀ t ∈ segmentTimestamps 1 3, (1 : ℚ) * 0.05 ≤ t ∧ t ≤ 1 * 0.95 :=
  ⟨by decide, by decide, (segment_timestamps_even 1 3 (by decide) (by decide)).2.2⟩

/-! ## The video sampler: scratch management and failure behaviour -/

/-- Filesystem state visible to one `generateVideoThumbnail` task: the
scratch frame indices present in its private temp directory, whether that
directory exists, and whether the destination artifact exists. -/
structure FsState where
  scratch : List Nat
  tempDirExists : Bool
  destWritten : Bool
deriving DecidableEq

/-- A successful `ffmpeg` single-frame extraction writing frame `j` into
the scratch directory. -/
def addFrame (j : Nat) (st : FsState) : FsState :=
  { st with scratch := st.scratch ++ [j] }

/-- The nested extraction loops of `generateVideoThumbnail`, flattened over
the running `frameIndex`: extract each frame in order and abort at the
first frame whose `ffmpeg` invocation fails (its thrown error propagates,
so later frames are not attempted); a failing command writes nothing. -/
def extractFrames (ex : Nat → Bool) : List Nat → FsState → FsState × Option Nat
  | [], st => (st, none)
  | j :: rest, st =>
    if ex j then extractFrames ex rest (addFrame j st)
    else (st, some j)

/-- The `finally` block of `generateVideoThumbnail`: read the scratch
directory listing, unlink every listed file, then remove the directory. -/
def cleanupScratch (st : FsState) : FsState :=
  { st with
      scratch := st.scratch.foldl (fun acc f => acc.erase f) st.scratch,
      tempDirExists := false }

/-- Terminal outcome of one `generateVideoThumbnail` call; every outcome
other than `ok` is a thrown error, which `processOne` counts as Failed. -/
inductive VideoOutcome where
  | ok
  | durationUnavailable
  | extractFailed (j : Nat)
  | assembleFailed
deriving DecidableEq

/-- Result of one `generateVideoThumbnail` call: the final filesystem
state, the outcome, and whether the assembly command was invoked. -/
structure VideoRun where
  fs : FsState
  outcome : VideoOutcome
  assembleInvoked : Bool
deriving DecidableEq

/-- Total number of scratch frames one task extracts:
`segmentCount * framesPerSegment` (the flattened nested loops). -/
def totalFrames (p : String) (d : ℚ) : Nat :=
  (segmentCount p d).toNat * framesPerSegment p

/-- One `generateVideoThumbnail(videoPath, outputPath)` call against the
external-decoder oracles.  `rawDur` is the `getVideoDuration` result
(`none` when `ffprobe` fails or parses no number; a non-positive value is
rejected the same way, before any scratch state is created); `ex j` says
whether extraction of frame `j` succeeds; `asmOk` whether the final
assembly succeeds and writes the destination (a failing assembly, which
includes a timeout, writes nothing).  The `finally` cleanup runs on every
exit path. -/
def runVideoThumb (p : String) (rawDur : Option ℚ) (ex : Nat → Bool) (asmOk : Bool) :
    VideoRun :=
  match rawDur with
  | none => ⟨⟨[], false, false⟩, VideoOutcome.durationUnavailable, false⟩
  | some d =>
    if d ≤ 0 then ⟨⟨[], false, false⟩, VideoOutcome.durationUnavailable, false⟩
    else
      match extractFrames ex (List.range (totalFrames p d)) ⟨[], true, false⟩ with
      | (st1, some j) => ⟨cleanupScratch st1, VideoOutcome.extractFailed j, false⟩
      | (st1, none) =>
        if asmOk then
          ⟨cleanupScratch { st1 with destWritten := true }, VideoOutcome.ok, true⟩
        else ⟨cleanupScratch st1, VideoOutcome.assembleFailed, true⟩

theorem extractFrames_fs (ex : Nat → Bool) :
    ∀ (l : List Nat) (st : FsState),
      (extractFrames ex l st).1.scratch = st.scratch ++ l.takeWhile ex ∧
      (extractFrames ex l st).1.tempDirExists = st.tempDirExists ∧
      (extractFrames ex l st).1.destWritten = st.destWritten := by
  intro l
  induction l with
  | nil => simp [extractFrames]
  | cons j rest ih =>
    intro st
    by_cases hj : ex j
    · have hrec := ih (addFrame j st)
      simp only [extractFrames, hj, if_true, List.takeWhile_cons, addFrame] at hrec ⊢
      refine ⟨?_, hrec.2.1, hrec.2.2⟩
      rw [hrec.1]
      simp
    · simp [extractFrames, hj, List.takeWhile_cons]

theorem extractFrames_none_iff (ex : Nat → Bool) :
    ∀ (l : List Nat) (st : FsState),
      ((extractFrames ex l st).2 = none ↔ ∀ j ∈ l, ex j = true) := by
  intro l
  induction l with
  | nil => simp [extractFrames]
  | cons j rest ih =>
    intro st
    by_cases hj : ex j
    · simp only [extractFrames, hj, if_true]
      rw [ih (addFrame j st)]
      simp [hj]
    · simp [extractFrames, hj]

theorem cleanupScratch_scratch (st : FsState) : (cleanupScratch st).scratch = [] := by
  show st.scratch.foldl (fun acc f => acc.erase f) st.scratch = []
  generalize st.scratch = l
  induction l with
  | nil => rfl
  | cons a t ih =>
    show List.foldl _ ((a :: t).erase a) t = []
    rw [List.erase_cons_head]
    exact ih

theorem cleanupScratch_tempDir (st : FsState) :
    (cleanupScratch st).tempDirExists = false := rfl

theorem cleanupScratch_dest (st : FsState) :
    (cleanupScratch st).destWritten = st.destWritten := rfl

/-- Claim C8: after every `generateVideoThumbnail` invocation - success,
probe failure, per-frame extraction failure, assembly failure or timeout
(a timed-out command is a failing command) - the per-task scratch
directory and every scratch frame it created are removed. -/
theorem video_scratch_cleanup (p : String) (rawDur : Option ℚ) (ex : Nat → Bool)
    (asmOk : Bool) :
    (runVideoThumb p rawDur ex asmOk).fs.scratch = [] ∧
    (runVideoThumb p rawDur ex asmOk).fs.tempDirExists = false := by
  cases rawDur with
  | none => exact ⟨rfl, rfl⟩
  | some d =>
    by_cases hd : d ≤ 0
    · simp [runVideoThumb, hd]
    · rcases hres : extractFrames ex (List.range (totalFrames p d)) ⟨[], true, false⟩ with
        ⟨st1, err⟩
      cases err with
      | some j =>
        simp [runVideoThumb, hd, hres, cleanupScratch_scratch, cleanupScratch_tempDir]
      | none =>
        cases asmOk with
        | true =>
          simp [runVideoThumb, hd, hres, cleanupScratch_scratch, cleanupScratch_tempDir]
        | false =>
          simp [runVideoThumb, hd, hres, cleanupScratch_scratch, cleanupScratch_tempDir]

/-- Claim C7: if any per-frame extraction or the final assembly fails, the
task does not succeed (the thrown error is reported as Failed by the
caller) and no output file exists at the destination; assembly is invoked
only after every frame extracted successfully. -/
theorem video_failure_aborts_no_output (p : String) (d : ℚ) (ex : Nat → Bool)
    (asmOk : Bool) (hd : 0 < d)
    (hfail : (∃ j, j < totalFrames p d ∧ ex j = false) ∨ asmOk = false) :
    (runVideoThumb p (some d) ex asmOk).outcome ≠ VideoOutcome.ok ∧
    (runVideoThumb p (some d) ex asmOk).fs.destWritten = false ∧
    ((runVideoThumb p (some d) ex asmOk).assembleInvoked = true →
      ∀ j < totalFrames p d, ex j = true) := by
  have hdle : ¬ d ≤ 0 := not_le.mpr hd
  rcases hres : extractFrames ex (List.range (totalFrames p d)) ⟨[], true, false⟩ with
    ⟨st1, err⟩
  have hfs := extractFrames_fs ex (List.range (totalFrames p d)) ⟨[], true, false⟩
  rw [hres] at hfs
  cases err with
  | some j =>
    simp only [runVideoThumb, if_neg hdle, hres]
    refine ⟨by simp, ?_, by simp⟩
    rw [cleanupScratch_dest st1]
    exact hfs.2.2
  | none =>
    have hall : ∀ j ∈ List.range (totalFrames p d), ex j = true := by
      have := extractFrames_none_iff ex (List.range (totalFrames p d)) ⟨[], true, false⟩
      rw [hres] at this
      exact this.mp rfl
    have hallR : ∀ j < totalFrames p d, ex j = true := by
      intro j hj
      exact hall j (List.mem_range.mpr hj)
    have hasm : asmOk = false := by
      rcases hfail with ⟨j, hj, hex⟩ | h
      · exact absurd (hallR j hj) (by simp [hex])
      · exact h
    subst hasm
    simp only [runVideoThumb, if_neg hdle, hres, Bool.false_eq_true, if_false]
    refine ⟨by simp, ?_, fun _ => hallR⟩
    rw [cleanupScratch_dest st1]
    exact hfs.2.2

/-- Closed witness for C7: a concrete video path, duration 3, an extractor
that always fails, and a succeeding assembler. -/
theorem video_failure_aborts_no_output_witness :
    (0 : ℚ) < 3 ∧ (0 < totalFrames "v.mp4" 3 ∧ (fun _ : Nat => false) 0 = false) ∧
      (runVideoThumb "v.mp4" (some 3) (fun _ => false) true).outcome ≠ VideoOutcome.ok :=
  ⟨by decide, ⟨by decide, rfl⟩,
    (video_failure_aborts_no_output "v.mp4" 3 (fun _ => false) true (by decide)
      (Or.inl ⟨0, by decide, rfl⟩)).1⟩


/-! ## Scratch frame filenames and their ordering -/

/-- The source's scratch frame filename
`frame_<frameIndex.toString().padStart(3, "0")>.png`. -/
def frameFileName (i : Nat) : String :=
  "frame_" ++ String.mk (padZeros 3 (toBaseStr 10 i)) ++ ".png"

theorem hexChar_mono : ∀ a, a < 16 → ∀ b, b < 16 → a < b → hexChar a < hexChar b := by
  decide

theorem lex_append_left (p : List Char) {a b : List Char}
    (h : List.Lex (· < ·) a b) : List.Lex (· < ·) (p ++ a) (p ++ b) := by
  induction p with
  | nil => exact h
  | cons c t ih => exact List.Lex.cons ih

theorem lex_append_right (s : List Char) :
    ∀ a b : List Char, List.Lex (· < ·) a b → a.length = b.length →
      List.Lex (· < ·) (a ++ s) (b ++ s) := by
  intro a
  induction a with
  | nil =>
    intro b h hlen
    cases h with
    | nil => simp at hlen
  | cons x xs ih =>
    intro b h hlen
    cases h with
    | rel hr => exact List.Lex.rel hr
    | cons htail =>
      rename_i ys
      exact List.Lex.cons (ih ys htail (by simpa using hlen))

theorem lex_of_valD_lt :
    ∀ l1 l2 : List Nat, l1.length = l2.length →
      (∀ x ∈ l1, x < 10) → (∀ x ∈ l2, x < 10) →
      valD 10 l1 < valD 10 l2 →
      List.Lex (· < ·) (l1.map hexChar) (l2.map hexChar) := by
  intro l1
  induction l1 with
  | nil =>
    intro l2 hlen _ _ hv
    have hl2 : l2 = [] := List.length_eq_zero.mp hlen.symm
    subst hl2
    simp [valD] at hv
  | cons a t ih =>
    intro l2 hlen h1 h2 hv
    cases l2 with
    | nil => simp at hlen
    | cons b u =>
      have hlen' : t.length = u.length := by simpa using hlen
      have ha : a < 10 := h1 a (by simp)
      have hb : b < 10 := h2 b (by simp)
      rcases lt_trichotomy a b with hab | hab | hab
      · exact List.Lex.rel (hexChar_mono a (by omega) b (by omega) hab)
      · subst hab
        apply List.Lex.cons
        apply ih u hlen' (fun x hx => h1 x (List.mem_cons_of_mem _ hx))
          (fun x hx => h2 x (List.mem_cons_of_mem _ hx))
        simp only [valD, hlen'] at hv
        omega
      · exfalso
        have hvu : valD 10 u < 10 ^ u.length :=
          valD_lt 10 (by norm_num) u (fun x hx => h2 x (List.mem_cons_of_mem _ hx))
        have h1' : valD 10 (a :: t) = a * 10 ^ t.length + valD 10 t := rfl
        have h2' : valD 10 (b :: u) = b * 10 ^ u.length + valD 10 u := rfl
        rw [h1', h2', hlen'] at hv
        have hge : (b + 1) * 10 ^ u.length ≤ a * 10 ^ u.length :=
          Nat.mul_le_mul_right _ (by omega)
        have : b * 10 ^ u.length + valD 10 u < (b + 1) * 10 ^ u.length := by
          have : (b + 1) * 10 ^ u.length = b * 10 ^ u.length + 10 ^ u.length := by ring
          omega
        omega

theorem padded_digits_length (n : Nat) (hn : n < 1000) :
    (List.replicate (3 - (digitsRec 10 n).length) 0 ++ digitsRec 10 n).length = 3 := by
  have hlen : (digitsRec 10 n).length ≤ 3 :=
    digitsRec_length_le 10 (by norm_num) n 3 (by norm_num) (by norm_num [hn])
  rw [List.length_append, List.length_replicate]
  omega

theorem padded_digits_lt (n : Nat) :
    ∀ x ∈ List.replicate (3 - (digitsRec 10 n).length) 0 ++ digitsRec 10 n, x < 10 := by
  intro x hx
  rcases List.mem_append.mp hx with h | h
  · have := List.eq_of_mem_replicate h
    omega
  · exact digitsRec_entries 10 (by norm_num) n x h

theorem padded_digits_val (n : Nat) :
    valD 10 (List.replicate (3 - (digitsRec 10 n).length) 0 ++ digitsRec 10 n) = n := by
  rw [valD_replicate_zero, valD_digitsRec 10 (by norm_num)]

theorem padZeros_toBaseStr_eq (k n : Nat) :
    padZeros k (toBaseStr 10 n) =
      (List.replicate (k - (digitsRec 10 n).length) 0 ++ digitsRec 10 n).map hexChar := by
  unfold padZeros toBaseStr
  rw [List.map_append, List.map_replicate, List.length_map]
  rfl

theorem frameFileName_data (k : Nat) :
    (frameFileName k).data =
      "frame_".data ++ (padZeros 3 (toBaseStr 10 k) ++ ".png".data) := by
  unfold frameFileName
  rw [String.data_append, String.data_append, List.append_assoc]

theorem frameFileName_lt (i j : Nat) (hij : i < j) (hj : j < 1000) :
    frameFileName i < frameFileName j := by
  have hi : i < 1000 := lt_trans hij hj
  rw [String.lt_iff_toList_lt]
  show List.Lex (· < ·) (frameFileName i).data (frameFileName j).data
  rw [frameFileName_data, frameFileName_data]
  apply lex_append_left
  apply lex_append_right
  · rw [padZeros_toBaseStr_eq, padZeros_toBaseStr_eq]
    apply lex_of_valD_lt
    · rw [padded_digits_length i hi, padded_digits_length j hj]
    · exact padded_digits_lt i
    · exact padded_digits_lt j
    · rw [padded_digits_val i, padded_digits_val j]
      exact hij
  · rw [padZeros_toBaseStr_eq, padZeros_toBaseStr_eq, List.length_map, List.length_map,
      padded_digits_length i hi, padded_digits_length j hj]

/-- Claim C10: one video task extracts `segmentCount * framesPerSegment`
scratch frames, at most `10 * 20 = 200 < 1000`, so the zero-padded
three-digit `frame_NNN` filenames are pairwise distinct and their
lexicographic order agrees with the extraction order (frame indices
increase through segments in timestamp order and frames within a segment
in extraction order), as consumed by the `frame_%03d` assembly pattern. -/
theorem frame_names_ordered (p : String) (d : ℚ) :
    totalFrames p d ≤ 200 ∧ totalFrames p d < 1000 ∧
    ∀ i j, i < j → j < totalFrames p d →
      frameFileName i ≠ frameFileName j ∧ frameFileName i < frameFileName j := by
  have hbound : totalFrames p d ≤ 200 := by
    have h1 : (segmentCount p d).toNat ≤ 10 := by
      have hb : baseSegmentCount p ≤ 10 := baseSegmentCount_le p
      unfold segmentCount jsMin jsMax
      split_ifs <;> omega
    have h2 : framesPerSegment p ≤ 20 := framesPerSegment_le p
    calc totalFrames p d ≤ 10 * 20 := Nat.mul_le_mul h1 h2
      _ = 200 := by norm_num
  refine ⟨hbound, by omega, ?_⟩
  intro i j hij hj
  have hj1000 : j < 1000 := by omega
  have hlt := frameFileName_lt i j hij hj1000
  exact ⟨ne_of_lt hlt, hlt⟩

/-- Closed witness for C10 at a concrete path, duration and frame pair. -/
theorem frame_names_ordered_witness :
    (0 : Nat) < 7 ∧ 7 < totalFrames "v.mp4" 3 ∧ frameFileName 0 ≠ frameFileName 7 :=
  ⟨by decide, by decide,
    ((frame_names_ordered "v.mp4" 3).2.2 0 7 (by decide) (by decide)).1⟩


/-! ## The thumbnail worker pool -/

/-- Terminal outcome of one generation task. -/
inductive TaskOutcome where
  | generated
  | skipped
  | failed
deriving DecidableEq

/-- Fixed run configuration: whether `ffmpeg` was found at pool start
(checked once, not per task), and the deterministic per-entry oracle
telling whether generating that entry's thumbnail succeeds (fixed for an
unchanged inventory and environment). -/
structure PoolCfg where
  hasFfmpeg : Bool
  genOk : MediaEntry → Bool

/-- The cache key of an entry: its thumbnail artifact path. -/
def thumbKey (e : MediaEntry) : String := getThumbnailPath e.path e.type

/-- Pool state: the shared queue, each worker's in-flight item (`none`
when idle), the existing cache artifact paths, the three progress
counters of the source (`completed`, `skipped`, `failed`; the printed
Generated count is `completed - skipped - failed`), and a bookkeeping
list of terminal outcomes in completion order. -/
structure PoolState where
  queue : List MediaEntry
  workers : List (Option MediaEntry)
  cache : List String
  completed : Nat
  skipped : Nat
  failed : Nat
  outcomes : List (MediaEntry × TaskOutcome)
deriving DecidableEq

/-- The synchronous head of `processOne`: dequeue, check the cache, check
the video-without-ffmpeg downgrade, and either complete immediately as
Skipped or dispatch generation.  No `await` separates these steps, so
they form one atomic step of the interleaving. -/
def claimItem (cfg : PoolCfg) (s : PoolState) (i : Nat) (item : MediaEntry)
    (rest : List MediaEntry) : PoolState :=
  if thumbKey item ∈ s.cache then
    { s with queue := rest, skipped := s.skipped + 1, completed := s.completed + 1,
             outcomes := s.outcomes ++ [(item, TaskOutcome.skipped)] }
  else if item.type = MediaType.video ∧ cfg.hasFfmpeg = false then
    { s with queue := rest, skipped := s.skipped + 1, completed := s.completed + 1,
             outcomes := s.outcomes ++ [(item, TaskOutcome.skipped)] }
  else
    { s with queue := rest, workers := s.workers.set i (some item) }

/-- Completion of a dispatched generation: on success the artifact is
written (the cache grows) and `completed` increments; on a thrown error
the `catch` increments `failed` and `completed`. -/
def finishItem (cfg : PoolCfg) (s : PoolState) (i : Nat) (item : MediaEntry) : PoolState :=
  if cfg.genOk item then
    { s with workers := s.workers.set i none, cache := thumbKey item :: s.cache,
             completed := s.completed + 1,
             outcomes := s.outcomes ++ [(item, TaskOutcome.generated)] }
  else
    { s with workers := s.workers.set i none, failed := s.failed + 1,
             completed := s.completed + 1,
             outcomes := s.outcomes ++ [(item, TaskOutcome.failed)] }

/-- One atomic step of worker `i`: a busy worker finishes its item; an
idle worker claims the queue head (or, with an empty queue, its loop
exits and the step is a no-op); an out-of-range index is a no-op. -/
def poolStep (cfg : PoolCfg) (s : PoolState) (i : Nat) : PoolState :=
  match s.workers[i]? with
  | none => s
  | some (some item) => finishItem cfg s i item
  | some none =>
    match s.queue with
    | [] => s
    | item :: rest => claimItem cfg s i item rest

/-- A whole run: fold an arbitrary interleaving (schedule of worker
indices) over the pool state. -/
def poolRun (cfg : PoolCfg) (s : PoolState) (sched : List Nat) : PoolState :=
  sched.foldl (poolStep cfg) s

/-- Initial pool state over an inventory, `k` workers and the existing
cache directory contents. -/
def initPool (inv : List MediaEntry) (k : Nat) (cache0 : List String) : PoolState :=
  ⟨inv, List.replicate k none, cache0, 0, 0, 0, []⟩

/-- A drained pool: empty queue and all workers idle. -/
def PoolDone (s : PoolState) : Prop :=
  s.queue = [] ∧ ∀ w ∈ s.workers, w = none

instance (s : PoolState) : Decidable (PoolDone s) := by
  unfold PoolDone
  infer_instance

/-- Number of in-flight items. -/
def countSome (ws : List (Option MediaEntry)) : Nat := (ws.filterMap id).length

theorem countSome_set_some :
    ∀ (ws : List (Option MediaEntry)) (i : Nat) (x : MediaEntry),
      ws[i]? = some none → countSome (ws.set i (some x)) = countSome ws + 1 := by
  intro ws
  induction ws with
  | nil =>
    intro i x h
    simp at h
  | cons a t ih =>
    intro i x h
    cases i with
    | zero =>
      simp at h
      subst h
      simp [countSome, List.filterMap_cons]
    | succ m =>
      simp at h
      have := ih m x h
      simp only [List.set_cons_succ]
      cases a with
      | none => simpa [countSome, List.filterMap_cons] using this
      | some y => simpa [countSome, List.filterMap_cons] using this

theorem countSome_set_none :
    ∀ (ws : List (Option MediaEntry)) (i : Nat) (y : MediaEntry),
      ws[i]? = some (some y) → countSome ws = countSome (ws.set i none) + 1 := by
  intro ws
  induction ws with
  | nil =>
    intro i y h
    simp at h
  | cons a t ih =>
    intro i y h
    cases i with
    | zero =>
      simp at h
      subst h
      simp [countSome, List.filterMap_cons]
    | succ m =>
      simp at h
      have := ih m y h
      simp only [List.set_cons_succ]
      cases a with
      | none => simpa [countSome, List.filterMap_cons] using this
      | some z => simpa [countSome, List.filterMap_cons] using this

theorem countSome_all_none :
    ∀ ws : List (Option MediaEntry), (∀ w ∈ ws, w = none) → countSome ws = 0 := by
  intro ws
  induction ws with
  | nil => intro _; rfl
  | cons a t ih =>
    intro h
    have ha : a = none := h a (by simp)
    subst ha
    simp only [countSome, List.filterMap_cons]
    exact ih (fun w hw => h w (by simp [hw]))

/-- Count and bookkeeping invariant of a run over an inventory of `total`
entries. -/
def PoolCount (total : Nat) (s : PoolState) : Prop :=
  s.completed + s.queue.length + countSome s.workers = total ∧
  s.skipped + s.failed ≤ s.completed ∧
  s.outcomes.length = s.completed

theorem poolStep_count (cfg : PoolCfg) (total : Nat) (s : PoolState) (i : Nat)
    (h : PoolCount total s) : PoolCount total (poolStep cfg s i) := by
  obtain ⟨h1, h2, h3⟩ := h
  rcases hw : s.workers[i]? with _ | w
  · simp only [poolStep, hw]
    exact ⟨h1, h2, h3⟩
  · cases w with
    | some item =>
      simp only [poolStep, hw]
      unfold finishItem
      have hcount := countSome_set_none s.workers i item hw
      split_ifs
      · refine ⟨?_, ?_, ?_⟩
        · show s.completed + 1 + s.queue.length + countSome (s.workers.set i none) = total
          omega
        · show s.skipped + s.failed ≤ s.completed + 1
          omega
        · show (s.outcomes ++ [(item, TaskOutcome.generated)]).length = s.completed + 1
          rw [List.length_append]
          simp only [List.length_cons, List.length_nil]
          omega
      · refine ⟨?_, ?_, ?_⟩
        · show s.completed + 1 + s.queue.length + countSome (s.workers.set i none) = total
          omega
        · show s.skipped + (s.failed + 1) ≤ s.completed + 1
          omega
        · show (s.outcomes ++ [(item, TaskOutcome.failed)]).length = s.completed + 1
          rw [List.length_append]
          simp only [List.length_cons, List.length_nil]
          omega
    | none =>
      rcases hq : s.queue with _ | ⟨item, rest⟩
      · simp only [poolStep, hw, hq]
        exact ⟨h1, h2, h3⟩
      · simp only [poolStep, hw, hq]
        unfold claimItem
        have hcount := countSome_set_some s.workers i item hw
        rw [hq] at h1
        simp only [List.length_cons] at h1
        split_ifs
        · refine ⟨?_, ?_, ?_⟩
          · show s.completed + 1 + rest.length + countSome s.workers = total
            omega
          · show s.skipped + 1 + s.failed ≤ s.completed + 1
            omega
          · show (s.outcomes ++ [(item, TaskOutcome.skipped)]).length = s.completed + 1
            rw [List.length_append]
            simp only [List.length_cons, List.length_nil]
            omega
        · refine ⟨?_, ?_, ?_⟩
          · show s.completed + 1 + rest.length + countSome s.workers = total
            omega
          · show s.skipped + 1 + s.failed ≤ s.completed + 1
            omega
          · show (s.outcomes ++ [(item, TaskOutcome.skipped)]).length = s.completed + 1
            rw [List.length_append]
            simp only [List.length_cons, List.length_nil]
            omega
        · refine ⟨?_, ?_, ?_⟩
          · show s.completed + rest.length + countSome (s.workers.set i (some item)) = total
            omega
          · show s.skipped + s.failed ≤ s.completed
            omega
          · show s.outcomes.length = s.completed
            omega

theorem poolRun_count (cfg : PoolCfg) (total : Nat) :
    ∀ (sched : List Nat) (s : PoolState), PoolCount total s →
      PoolCount total (poolRun cfg s sched) := by
  intro sched
  induction sched with
  | nil => intro s h; exact h
  | cons i rest ih =>
    intro s h
    exact ih (poolStep cfg s i) (poolStep_count cfg total s i h)

theorem initPool_count (inv : List MediaEntry) (k : Nat) (cache0 : List String) :
    PoolCount inv.length (initPool inv k cache0) := by
  refine ⟨?_, by simp [initPool], by simp [initPool]⟩
  show 0 + inv.length + countSome (List.replicate k none) = inv.length
  rw [countSome_all_none _ (fun w hw => List.eq_of_mem_replicate hw)]
  omega

/-- Claim C9: once the pool has drained the whole inventory (empty queue,
all workers idle), `completed = inventory size`, every entry produced
exactly one terminal outcome, and the reported counts satisfy
`generated + skipped + failed = inventory size` (the source prints
`completed - skipped - failed` as Generated), for every concurrency
setting of at least one worker and every interleaving. -/
theorem pool_conservation (inv : List MediaEntry) (k : Nat) (cfg : PoolCfg)
    (cache0 : List String) (sched : List Nat) (hk : 1 ≤ k)
    (hdone : PoolDone (poolRun cfg (initPool inv k cache0) sched)) :
    (poolRun cfg (initPool inv k cache0) sched).completed = inv.length ∧
    (poolRun cfg (initPool inv k cache0) sched).outcomes.length = inv.length ∧
    ((poolRun cfg (initPool inv k cache0) sched).completed -
          (poolRun cfg (initPool inv k cache0) sched).skipped -
          (poolRun cfg (initPool inv k cache0) sched).failed) +
        (poolRun cfg (initPool inv k cache0) sched).skipped +
        (poolRun cfg (initPool inv k cache0) sched).failed = inv.length := by
  have hc := poolRun_count cfg inv.length sched (initPool inv k cache0)
    (initPool_count inv k cache0)
  obtain ⟨h1, h2, h3⟩ := hc
  obtain ⟨hq, hwork⟩ := hdone
  rw [hq] at h1
  rw [countSome_all_none _ hwork] at h1
  simp only [List.length_nil] at h1
  refine ⟨by omega, by omega, by omega⟩

/-- Closed witness for C9: one image entry, one worker, a two-step
schedule that dispatches and then finishes it. -/
theorem pool_conservation_witness :
    (1 : Nat) ≤ 1 ∧
    PoolDone (poolRun ⟨true, fun _ => true⟩
      (initPool [⟨"a.jpg", 5, MediaType.image⟩] 1 []) [0, 0]) ∧
    (poolRun ⟨true, fun _ => true⟩
      (initPool [⟨"a.jpg", 5, MediaType.image⟩] 1 []) [0, 0]).completed = 1 :=
  ⟨by decide, by decide,
    (pool_conservation [⟨"a.jpg", 5, MediaType.image⟩] 1 ⟨true, fun _ => true⟩ [] [0, 0]
      (by decide) (by decide)).1⟩


/-! ## Cache idempotence of a second run -/

/-- The video-without-ffmpeg downgrade condition of `processOne`. -/
def ffSkip (cfg : PoolCfg) (e : MediaEntry) : Prop :=
  e.type = MediaType.video ∧ cfg.hasFfmpeg = false

/-- Run invariant: every inventory entry is queued, in flight, or has a
terminal outcome; any outcome of a generatable entry implies its artifact
is cached; a Generated outcome implies its artifact is cached. -/
def Run1Inv (inv : List MediaEntry) (cfg : PoolCfg) (s : PoolState) : Prop :=
  (∀ e ∈ inv, e ∈ s.queue ∨ (∃ i : Nat, s.workers[i]? = some (some e)) ∨
    ∃ o, (e, o) ∈ s.outcomes) ∧
  (∀ e o, (e, o) ∈ s.outcomes → cfg.genOk e = true → ¬ ffSkip cfg e →
    thumbKey e ∈ s.cache) ∧
  (∀ e, (e, TaskOutcome.generated) ∈ s.outcomes → thumbKey e ∈ s.cache)

theorem poolStep_cache_mono (cfg : PoolCfg) (s : PoolState) (i : Nat) :
    ∀ x ∈ s.cache, x ∈ (poolStep cfg s i).cache := by
  intro x hx
  rcases hw : s.workers[i]? with _ | w
  · simpa only [poolStep, hw] using hx
  · cases w with
    | some item =>
      simp only [poolStep, hw]
      unfold finishItem
      split_ifs
      · exact List.mem_cons_of_mem _ hx
      · exact hx
    | none =>
      rcases hq : s.queue with _ | ⟨item, rest⟩
      · simpa only [poolStep, hw, hq] using hx
      · simp only [poolStep, hw, hq]
        unfold claimItem
        split_ifs <;> exact hx

theorem poolStep_run1 (inv : List MediaEntry) (cfg : PoolCfg) (s : PoolState) (i : Nat)
    (h : Run1Inv inv cfg s) : Run1Inv inv cfg (poolStep cfg s i) := by
  obtain ⟨h1, h2, h3⟩ := h
  rcases hw : s.workers[i]? with _ | w
  · simp only [poolStep, hw]
    exact ⟨h1, h2, h3⟩
  · cases w with
    | some item =>
      simp only [poolStep, hw]
      unfold finishItem
      split_ifs with hgen
      · refine ⟨?_, ?_, ?_⟩
        · intro e he
          rcases h1 e he with hqm | ⟨j, hj⟩ | ⟨o, ho⟩
          · exact Or.inl hqm
          · by_cases hij : i = j
            · subst hij
              rw [hw] at hj
              have heq : item = e := by
                injection hj with hj1
                injection hj1
              subst heq
              exact Or.inr (Or.inr ⟨TaskOutcome.generated, by simp⟩)
            · exact Or.inr (Or.inl ⟨j, by rw [List.getElem?_set_ne hij]; exact hj⟩)
          · exact Or.inr (Or.inr ⟨o, List.mem_append_left _ ho⟩)
        · intro e o ho hg hf
          rcases List.mem_append.mp ho with ho | ho
          · exact List.mem_cons_of_mem _ (h2 e o ho hg hf)
          · simp at ho
            rw [ho.1]
            exact List.mem_cons_self _ _
        · intro e he
          rcases List.mem_append.mp he with he | he
          · exact List.mem_cons_of_mem _ (h3 e he)
          · simp at he
            rw [he]
            exact List.mem_cons_self _ _
      · refine ⟨?_, ?_, ?_⟩
        · intro e he
          rcases h1 e he with hqm | ⟨j, hj⟩ | ⟨o, ho⟩
          · exact Or.inl hqm
          · by_cases hij : i = j
            · subst hij
              rw [hw] at hj
              have heq : item = e := by
                injection hj with hj1
                injection hj1
              subst heq
              exact Or.inr (Or.inr ⟨TaskOutcome.failed, by simp⟩)
            · exact Or.inr (Or.inl ⟨j, by rw [List.getElem?_set_ne hij]; exact hj⟩)
          · exact Or.inr (Or.inr ⟨o, List.mem_append_left _ ho⟩)
        · intro e o ho hg hf
          rcases List.mem_append.mp ho with ho | ho
          · exact h2 e o ho hg hf
          · simp at ho
            rw [ho.1] at hg
            rw [hg] at hgen
            exact absurd rfl hgen
        · intro e he
          rcases List.mem_append.mp he with he | he
          · exact h3 e he
          · simp at he
    | none =>
      rcases hq : s.queue with _ | ⟨item, rest⟩
      · simp only [poolStep, hw, hq]
        exact ⟨h1, h2, h3⟩
      · have hwlt : i < s.workers.length := by
          obtain ⟨hlt, _⟩ := List.getElem?_eq_some.mp hw
          exact hlt
        simp only [poolStep, hw, hq]
        unfold claimItem
        split_ifs with hc1 hc2
        · refine ⟨?_, ?_, ?_⟩
          · intro e he
            rcases h1 e he with hqm | ⟨j, hj⟩ | ⟨o, ho⟩
            · rw [hq] at hqm
              rcases List.mem_cons.mp hqm with rfl | hrest
              · exact Or.inr (Or.inr ⟨TaskOutcome.skipped, by simp⟩)
              · exact Or.inl hrest
            · exact Or.inr (Or.inl ⟨j, hj⟩)
            · exact Or.inr (Or.inr ⟨o, List.mem_append_left _ ho⟩)
          · intro e o ho hg hf
            rcases List.mem_append.mp ho with ho | ho
            · exact h2 e o ho hg hf
            · simp at ho
              rw [ho.1]
              exact hc1
          · intro e he
            rcases List.mem_append.mp he with he | he
            · exact h3 e he
            · simp at he
        · refine ⟨?_, ?_, ?_⟩
          · intro e he
            rcases h1 e he with hqm | ⟨j, hj⟩ | ⟨o, ho⟩
            · rw [hq] at hqm
              rcases List.mem_cons.mp hqm with rfl | hrest
              · exact Or.inr (Or.inr ⟨TaskOutcome.skipped, by simp⟩)
              · exact Or.inl hrest
            · exact Or.inr (Or.inl ⟨j, hj⟩)
            · exact Or.inr (Or.inr ⟨o, List.mem_append_left _ ho⟩)
          · intro e o ho hg hf
            rcases List.mem_append.mp ho with ho | ho
            · exact h2 e o ho hg hf
            · simp at ho
              exact absurd (show ffSkip cfg e by rw [ho.1]; exact hc2) hf
          · intro e he
            rcases List.mem_append.mp he with he | he
            · exact h3 e he
            · simp at he
        · refine ⟨?_, ?_, ?_⟩
          · intro e he
            rcases h1 e he with hqm | ⟨j, hj⟩ | ⟨o, ho⟩
            · rw [hq] at hqm
              rcases List.mem_cons.mp hqm with rfl | hrest
              · exact Or.inr (Or.inl ⟨i, by rw [List.getElem?_set_eq_of_lt _ hwlt]⟩)
              · exact Or.inl hrest
            · by_cases hij : i = j
              · subst hij
                rw [hw] at hj
                exact absurd hj (by simp)
              · exact Or.inr (Or.inl ⟨j, by rw [List.getElem?_set_ne hij]; exact hj⟩)
            · exact Or.inr (Or.inr ⟨o, ho⟩)
          · exact h2
          · exact h3

theorem poolRun_run1 (inv : List MediaEntry) (cfg : PoolCfg) :
    ∀ (sched : List Nat) (s : PoolState), Run1Inv inv cfg s →
      Run1Inv inv cfg (poolRun cfg s sched) := by
  intro sched
  induction sched with
  | nil => intro s h; exact h
  | cons i rest ih =>
    intro s h
    exact ih (poolStep cfg s i) (poolStep_run1 inv cfg s i h)

theorem initPool_run1 (inv : List MediaEntry) (cfg : PoolCfg) (k : Nat)
    (cache0 : List String) : Run1Inv inv cfg (initPool inv k cache0) := by
  refine ⟨fun e he => Or.inl he, ?_, ?_⟩
  · intro e o ho
    simp [initPool] at ho
  · intro e he
    simp [initPool] at he

/-- After a drained run, every generatable inventory entry has its
artifact in the final cache, and so does every entry with a Generated
outcome. -/
theorem run1_final (inv : List MediaEntry) (cfg : PoolCfg) (k : Nat)
    (cache0 : List String) (sched : List Nat)
    (hdone : PoolDone (poolRun cfg (initPool inv k cache0) sched)) :
    (∀ e ∈ inv, cfg.genOk e = true → ¬ ffSkip cfg e →
      thumbKey e ∈ (poolRun cfg (initPool inv k cache0) sched).cache) ∧
    (∀ e, (e, TaskOutcome.generated) ∈ (poolRun cfg (initPool inv k cache0) sched).outcomes →
      thumbKey e ∈ (poolRun cfg (initPool inv k cache0) sched).cache) := by
  have hinv := poolRun_run1 inv cfg sched (initPool inv k cache0)
    (initPool_run1 inv cfg k cache0)
  obtain ⟨h1, h2, h3⟩ := hinv
  obtain ⟨hq, hwork⟩ := hdone
  refine ⟨?_, h3⟩
  intro e he hg hf
  rcases h1 e he with hqm | ⟨j, hj⟩ | ⟨o, ho⟩
  · rw [hq] at hqm
    simp at hqm
  · have := hwork _ (List.getElem?_mem hj)
    simp at this
  · exact h2 e o ho hg hf

/-- Second-run invariant over an initial cache `c0`: the initial cache is
preserved; queued items come from the inventory; an in-flight item is
never generatable and its artifact was not initially cached; no Generated
outcome appears; an initially-cached item's outcome can only be Skipped;
and `completed = skipped + failed` (so the Generated count is zero). -/
def Run2Inv (inv : List MediaEntry) (cfg : PoolCfg) (c0 : List String)
    (s : PoolState) : Prop :=
  (∀ x ∈ c0, x ∈ s.cache) ∧
  (∀ e ∈ s.queue, e ∈ inv) ∧
  (∀ (i : Nat) (e : MediaEntry), s.workers[i]? = some (some e) →
    cfg.genOk e = false ∧ thumbKey e ∉ c0) ∧
  (∀ e o, (e, o) ∈ s.outcomes → o ≠ TaskOutcome.generated) ∧
  (∀ e o, (e, o) ∈ s.outcomes → thumbKey e ∈ c0 → o = TaskOutcome.skipped) ∧
  s.completed = s.skipped + s.failed

theorem poolStep_run2 (inv : List MediaEntry) (cfg : PoolCfg) (c0 : List String)
    (s : PoolState) (i : Nat)
    (hH : ∀ e ∈ inv, cfg.genOk e = true → ¬ ffSkip cfg e → thumbKey e ∈ c0)
    (h : Run2Inv inv cfg c0 s) : Run2Inv inv cfg c0 (poolStep cfg s i) := by
  obtain ⟨j0, j1, j2, j3, j4, j5⟩ := h
  rcases hw : s.workers[i]? with _ | w
  · simp only [poolStep, hw]
    exact ⟨j0, j1, j2, j3, j4, j5⟩
  · cases w with
    | some item =>
      have hitem := j2 i item hw
      simp only [poolStep, hw]
      unfold finishItem
      rw [if_neg (by simp [hitem.1])]
      refine ⟨j0, j1, ?_, ?_, ?_, ?_⟩
      · intro j e hj
        by_cases hij : i = j
        · subst hij
          rw [List.getElem?_set_eq_of_lt _
            (by obtain ⟨hlt, _⟩ := List.getElem?_eq_some.mp hw; exact hlt)] at hj
          exact absurd hj (by simp)
        · rw [List.getElem?_set_ne hij] at hj
          exact j2 j e hj
      · intro e o ho
        rcases List.mem_append.mp ho with ho | ho
        · exact j3 e o ho
        · simp at ho
          rw [ho.2]
          simp
      · intro e o ho hc
        rcases List.mem_append.mp ho with ho | ho
        · exact j4 e o ho hc
        · simp at ho
          rw [ho.1] at hc
          exact absurd hc hitem.2
      · show s.completed + 1 = s.skipped + (s.failed + 1)
        omega
    | none =>
      rcases hq : s.queue with _ | ⟨item, rest⟩
      · simp only [poolStep, hw, hq]
        exact ⟨j0, j1, j2, j3, j4, j5⟩
      · have hmem : item ∈ inv := j1 item (by rw [hq]; simp)
        have hrest : ∀ e ∈ rest, e ∈ inv := fun e he => j1 e (by rw [hq]; simp [he])
        simp only [poolStep, hw, hq]
        unfold claimItem
        split_ifs with hc1 hc2
        · refine ⟨j0, hrest, j2, ?_, ?_, ?_⟩
          · intro e o ho
            rcases List.mem_append.mp ho with ho | ho
            · exact j3 e o ho
            · simp at ho
              rw [ho.2]
              simp
          · intro e o ho _
            rcases List.mem_append.mp ho with ho | ho
            · exact j4 e o ho (by assumption)
            · simp at ho
              exact ho.2
          · show s.completed + 1 = s.skipped + 1 + s.failed
            omega
        · refine ⟨j0, hrest, j2, ?_, ?_, ?_⟩
          · intro e o ho
            rcases List.mem_append.mp ho with ho | ho
            · exact j3 e o ho
            · simp at ho
              rw [ho.2]
              simp
          · intro e o ho _
            rcases List.mem_append.mp ho with ho | ho
            · exact j4 e o ho (by assumption)
            · simp at ho
              exact ho.2
          · show s.completed + 1 = s.skipped + 1 + s.failed
            omega
        · refine ⟨j0, hrest, ?_, j3, j4, j5⟩
          intro j e hj
          by_cases hij : i = j
          · subst hij
            rw [List.getElem?_set_eq_of_lt _
              (by obtain ⟨hlt, _⟩ := List.getElem?_eq_some.mp hw; exact hlt)] at hj
            have heq : item = e := by
              injection hj with hj1
              injection hj1
            subst heq
            have hnotc0 : thumbKey item ∉ c0 := fun hin => hc1 (j0 _ hin)
            constructor
            · by_contra hgen
              have hgen' : cfg.genOk item = true := by
                cases hgo : cfg.genOk item
                · exact absurd hgo hgen
                · rfl
              have hff : ¬ ffSkip cfg item := by
                intro hffs
                exact hc2 ⟨hffs.1, hffs.2⟩
              exact hnotc0 (hH item hmem hgen' hff)
            · exact hnotc0
          · rw [List.getElem?_set_ne hij] at hj
            exact j2 j e hj

theorem poolRun_run2 (inv : List MediaEntry) (cfg : PoolCfg) (c0 : List String)
    (hH : ∀ e ∈ inv, cfg.genOk e = true → ¬ ffSkip cfg e → thumbKey e ∈ c0) :
    ∀ (sched : List Nat) (s : PoolState), Run2Inv inv cfg c0 s →
      Run2Inv inv cfg c0 (poolRun cfg s sched) := by
  intro sched
  induction sched with
  | nil => intro s h; exact h
  | cons i rest ih =>
    intro s h
    exact ih (poolStep cfg s i) (poolStep_run2 inv cfg c0 s i hH h)

theorem initPool_run2 (inv : List MediaEntry) (cfg : PoolCfg) (k : Nat)
    (c0 : List String) : Run2Inv inv cfg c0 (initPool inv k c0) := by
  refine ⟨fun x hx => hx, fun e he => he, ?_, ?_, ?_, rfl⟩
  · intro i e hj
    have hmem := List.getElem?_mem hj
    have := List.eq_of_mem_replicate hmem
    simp at this
  · intro e o ho
    simp [initPool] at ho
  · intro e o ho
    simp [initPool] at ho


/-- Claim C4: with an unchanged inventory, unchanged decoder availability
and outcome oracle, and the cache directory left exactly as the first
drained run produced it, a second run yields zero Generated outcomes -
every first-run Generated task is found in the cache and Skipped, no
second-run outcome is Generated, and the second-run counters satisfy
`completed = skipped + failed` (the printed Generated count is zero) -
for any worker counts and any interleavings of the two runs. -/
theorem second_run_all_skipped
    (inv : List MediaEntry) (cfg : PoolCfg) (k1 k2 : Nat) (cache0 : List String)
    (sched1 sched2 : List Nat)
    (hdone1 : PoolDone (poolRun cfg (initPool inv k1 cache0) sched1)) :
    (∀ e o, (e, o) ∈ (poolRun cfg (initPool inv k2
        (poolRun cfg (initPool inv k1 cache0) sched1).cache) sched2).outcomes →
      o ≠ TaskOutcome.generated) ∧
    (∀ e o, (e, o) ∈ (poolRun cfg (initPool inv k2
        (poolRun cfg (initPool inv k1 cache0) sched1).cache) sched2).outcomes →
      thumbKey e ∈ (poolRun cfg (initPool inv k1 cache0) sched1).cache →
      o = TaskOutcome.skipped) ∧
    (∀ e, (e, TaskOutcome.generated) ∈
        (poolRun cfg (initPool inv k1 cache0) sched1).outcomes →
      ∀ o, (e, o) ∈ (poolRun cfg (initPool inv k2
          (poolRun cfg (initPool inv k1 cache0) sched1).cache) sched2).outcomes →
        o = TaskOutcome.skipped) ∧
    (poolRun cfg (initPool inv k2
        (poolRun cfg (initPool inv k1 cache0) sched1).cache) sched2).completed =
      (poolRun cfg (initPool inv k2
          (poolRun cfg (initPool inv k1 cache0) sched1).cache) sched2).skipped +
        (poolRun cfg (initPool inv k2
          (poolRun cfg (initPool inv k1 cache0) sched1).cache) sched2).failed := by
  have hfin := run1_final inv cfg k1 cache0 sched1 hdone1
  have hinv2 := poolRun_run2 inv cfg (poolRun cfg (initPool inv k1 cache0) sched1).cache
    hfin.1 sched2 (initPool inv k2 (poolRun cfg (initPool inv k1 cache0) sched1).cache)
    (initPool_run2 inv cfg k2 (poolRun cfg (initPool inv k1 cache0) sched1).cache)
  obtain ⟨j0, j1, j2, j3, j4, j5⟩ := hinv2
  refine ⟨j3, j4, ?_, j5⟩
  intro e hgen1 o ho2
  exact j4 e o ho2 (hfin.2 e hgen1)

/-- Closed witness for C4: one image entry generated by a drained first
run, then re-encountered as a cache hit by the second run. -/
theorem second_run_all_skipped_witness :
    PoolDone (poolRun ⟨true, fun _ => true⟩
        (initPool [⟨"a.jpg", 5, MediaType.image⟩] 1 []) [0, 0]) ∧
    (poolRun ⟨true, fun _ => true⟩
        (initPool [⟨"a.jpg", 5, MediaType.image⟩] 1
          (poolRun ⟨true, fun _ => true⟩
            (initPool [⟨"a.jpg", 5, MediaType.image⟩] 1 []) [0, 0]).cache) [0]).completed =
      (poolRun ⟨true, fun _ => true⟩
          (initPool [⟨"a.jpg", 5, MediaType.image⟩] 1
            (poolRun ⟨true, fun _ => true⟩
              (initPool [⟨"a.jpg", 5, MediaType.image⟩] 1 []) [0, 0]).cache) [0]).skipped +
        (poolRun ⟨true, fun _ => true⟩
          (initPool [⟨"a.jpg", 5, MediaType.image⟩] 1
            (poolRun ⟨true, fun _ => true⟩
              (initPool [⟨"a.jpg", 5, MediaType.image⟩] 1 []) [0, 0]).cache) [0]).failed :=
  ⟨by decide,
    (second_run_all_skipped [⟨"a.jpg", 5, MediaType.image⟩] ⟨true, fun _ => true⟩ 1 1 []
      [0, 0] [0] (by decide)).2.2.2⟩


end Gallery
